import Mathlib

/-!
Verification of the document-structuring and retrieval engine of the
Clinical-Trial-Protocol-Design-Support repository.

The Python sources are shallowly embedded as executable Lean definitions:
 * `rag.py` — regex section splitting, hybrid RRF retrieval, context assembly;
 * `section_splitter.py` — hierarchical section splitting;
 * `structure_chunker.py` — structured leaf chunking;
 * `structured_retriever.py` — BM25-over-titles chunk retrieval;
 * `multiagent.py` — the defensive router post-processing.

External collaborators (the FAISS dense index, the `rank_bm25` scoring
library, the generation LLM and the JSON parser) are modelled as opaque
inputs: the dense ranked list, the lexical score vector, the generation
function and the parsed JSON payload are parameters of the embedded
functions, exactly at the boundary where the source calls out.

Python `dict` semantics (insertion order preserved; assigning to an
existing key updates its value in place) are modelled by the association
list operations `dictSet` / `dictGet` below.
-/

namespace CTP

/-- Python `dict` lookup (`d.get(k)` / `k in d`): the unique binding of a
key in an association list with distinct keys. -/
def dictGet {β : Type} : List (String × β) → String → Option β
  | [], _ => none
  | p :: rest, k => if p.1 = k then some p.2 else dictGet rest k

/-- Python `dict` assignment `d[k] = v`: updates the value in place if the
key is present, otherwise appends the new binding at the end. -/
def dictSet {β : Type} (d : List (String × β)) (k : String) (v : β) :
    List (String × β) :=
  match d with
  | [] => [(k, v)]
  | p :: rest => if p.1 = k then (k, v) :: rest else p :: dictSet rest k v

/-- Python `dict(...)` built by iterated assignment from a pair list. -/
def pyDictOf {β : Type} (ps : List (String × β)) : List (String × β) :=
  ps.foldl (fun d p => dictSet d p.1 p.2) []

/-- `dictGet` after `dictSet`. -/
theorem dictGet_dictSet {β : Type} (d : List (String × β)) (k t : String) (v : β) :
    dictGet (dictSet d k v) t = if t = k then some v else dictGet d t := by
  induction d with
  | nil =>
    by_cases h : t = k
    · simp [dictSet, dictGet, h]
    · have h' : ¬ k = t := fun hh => h hh.symm
      simp [dictSet, dictGet, h, h']
  | cons p rest ih =>
    by_cases hp : p.1 = k
    · by_cases h : t = k
      · simp [dictSet, dictGet, hp, h]
      · have h' : ¬ k = t := fun hh => h hh.symm
        have hpt : ¬ p.1 = t := hp ▸ h'
        simp [dictSet, dictGet, hp, h, h', hpt]
    · by_cases hq : p.1 = t
      · have : ¬ t = k := fun h => hp (hq.trans h)
        simp [dictSet, dictGet, hp, hq, this]
      · simp [dictSet, dictGet, hp, hq, ih]

/-- Keys of a dict after `dictSet`. -/
theorem mem_keys_dictSet {β : Type} (d : List (String × β)) (k t : String) (v : β) :
    t ∈ (dictSet d k v).map (·.1) ↔ t = k ∨ t ∈ d.map (·.1) := by
  induction d with
  | nil => simp [dictSet]
  | cons p rest ih =>
    by_cases hp : p.1 = k
    · subst hp
      simp only [dictSet, eq_self_iff_true, if_true, List.map_cons, List.mem_cons]
      tauto
    · simp [dictSet, hp, ih, or_left_comm]

/-- Length of a dict after `dictSet`: unchanged when the key is present,
one more when it is new. -/
theorem length_dictSet {β : Type} (d : List (String × β)) (k : String) (v : β) :
    (dictSet d k v).length =
      if k ∈ d.map (·.1) then d.length else d.length + 1 := by
  induction d with
  | nil => simp [dictSet]
  | cons p rest ih =>
    by_cases hp : p.1 = k
    · simp [dictSet, hp]
    · have hkp : ¬ k = p.1 := fun h => hp h.symm
      by_cases hk : k ∈ rest.map (·.1) <;>
        simp [dictSet, hp, ih, hkp, hk]

/-- The keys of a Python dict stay distinct under assignment. -/
theorem nodup_keys_dictSet {β : Type} (d : List (String × β)) (k : String) (v : β)
    (hd : (d.map (·.1)).Nodup) : ((dictSet d k v).map (·.1)).Nodup := by
  induction d with
  | nil => simp [dictSet]
  | cons p rest ih =>
    rw [List.map_cons, List.nodup_cons] at hd
    by_cases hp : p.1 = k
    · simp only [dictSet, hp, if_true, List.map_cons, List.nodup_cons]
      exact ⟨hp ▸ hd.1, hd.2⟩
    · simp only [dictSet, hp, if_false, List.map_cons, List.nodup_cons]
      refine ⟨fun hmem => ?_, ih hd.2⟩
      rcases (mem_keys_dictSet rest k p.1 v).1 hmem with h | h
      · exact hp h
      · exact hd.1 h

/-! ### String utilities shared by the embedded modules -/

/-- ASCII whitespace as recognised by Python's `str.strip` and the regex
class `\s` (the source documents are ASCII). -/
def isPySpace (c : Char) : Bool :=
  c = ' ' || c = '\t' || c = '\n' || c = '\x0d' || c = '\x0c' || c = '\x0b'

/-- Python `str.strip()` on a character list. -/
def pyStripList (l : List Char) : List Char :=
  ((l.dropWhile isPySpace).reverse.dropWhile isPySpace).reverse

/-- Python `str.strip()`. -/
def pyStrip (s : String) : String := ⟨pyStripList s.data⟩

/-- Python slice `text[start:stop]` (with `start ≤ stop ≤ len`). -/
def pySlice (l : List Char) (start stop : Nat) : List Char :=
  (l.drop start).take (stop - start)

/-! ### `rag.py` — hybrid RRF retrieval

`RAGIndex.hybrid_search` and `RAGIndex.answer`.  The two external search
backends are inputs: `dense_docs` is the ranked list returned by the FAISS
dense search, and `bm25_scores` the per-window score vector returned by
`rank_bm25`'s `get_scores` (one entry per indexed window).  Everything
from the BM25 top-k selection onwards is source code and embedded here. -/

/-- A retrieval window: a langchain `Document` restricted to the fields
the retrieval code reads (`page_content` and `metadata['section_title']`). -/
structure Doc where
  page_content : String
  section_title : String
deriving DecidableEq

/-- Placeholder for out-of-range indexing (never reached under the length
hypotheses used in the theorems). -/
def defaultDoc : Doc := ⟨"", ""⟩

/-- Python `sorted(l, key=key, reverse=True)`: the stable descending sort
(an element is placed before the first element of ≤ key; equal-key
elements keep their original order, as Python's sort guarantees). -/
def sortDescBy {α : Type} (key : α → ℚ) (l : List α) : List α :=
  l.insertionSort (fun a b => key b ≤ key a)

/-- The fixed RRF constant: `k_param = 60`. -/
def kParam : ℚ := 60

/-- `rrf_scores[c] = rrf_scores.get(c, 0) + inc`. -/
def bump (d : List (String × ℚ)) (k : String) (inc : ℚ) : List (String × ℚ) :=
  dictSet d k (((dictGet d k).getD 0) + inc)

/-- One scoring pass with explicit running rank. -/
def scoreDocsAux (rank : Nat) (init : List (String × ℚ)) :
    List Doc → List (String × ℚ)
  | [] => init
  | doc :: rest =>
    scoreDocsAux (rank + 1)
      (bump init doc.page_content (1 / (kParam + (rank : ℚ)))) rest

/-- One scoring pass: `for rank, doc in enumerate(docs, start=1):
rrf_scores[doc.page_content] += 1 / (k_param + rank)`. -/
def scoreDocs (init : List (String × ℚ)) (docs : List Doc) : List (String × ℚ) :=
  scoreDocsAux 1 init docs

/-- The RRF score dictionary built from the dense pass then the BM25 pass. -/
def rrfScores (dense_docs bm25_docs : List Doc) : List (String × ℚ) :=
  scoreDocs (scoreDocs [] dense_docs) bm25_docs

/-- `rrf_scores[c]` (every key looked up by the sort is present, so the
default 0 is never used there). -/
def scoreOf (d : List (String × ℚ)) (c : String) : ℚ := (dictGet d c).getD 0

/-- `unique_docs`: first-encountered document for each `page_content`,
iterating the concatenation `dense_docs + bm25_docs`; `.items()` order is
insertion order. -/
def uniqueDocsAux (acc : List (String × Doc)) : List Doc → List (String × Doc)
  | [] => acc
  | doc :: rest =>
    if (dictGet acc doc.page_content).isSome then uniqueDocsAux acc rest
    else uniqueDocsAux (acc ++ [(doc.page_content, doc)]) rest

def uniqueDocs (docs : List Doc) : List (String × Doc) :=
  uniqueDocsAux [] docs

/-- Reciprocal Rank Fusion reranking (`rag.py` lines 161–185): score both
ranked lists, deduplicate by `page_content`, sort by descending fused
score (Python's sort is stable, so ties keep first-encounter order), and
cap at `top_k`. -/
def rrfFuse (dense_docs bm25_docs : List Doc) (top_k : Nat) : List Doc :=
  let rrf := rrfScores dense_docs bm25_docs
  let ranked :=
    (sortDescBy (fun p => scoreOf rrf p.1)
      (uniqueDocs (dense_docs ++ bm25_docs))).take top_k
  ranked.map (·.2)

/-- BM25 top-k selection (`rag.py` lines 150–159): indices of the score
vector sorted by descending score (ties by ascending index, again by
stability over `range(len(bm25_scores))`), capped at `top_k`, mapped to
the stored documents. -/
def bm25TopDocs (documents : List Doc) (bm25_scores : List ℚ) (top_k : Nat) :
    List Doc :=
  let idxs :=
    (sortDescBy (fun i => bm25_scores.getD i 0)
      (List.range bm25_scores.length)).take top_k
  idxs.map (fun i => documents.getD i defaultDoc)

/-- `RAGIndex.hybrid_search` with the two external backends as inputs. -/
def hybridSearch (documents dense_docs : List Doc) (bm25_scores : List ℚ)
    (top_k : Nat) : List Doc :=
  rrfFuse dense_docs (bm25TopDocs documents bm25_scores top_k) top_k

/-- `block = f"[{doc.metadata.get('section_title','')}]\n{doc.page_content}"`. -/
def fmtBlock (doc : Doc) : String :=
  "[" ++ doc.section_title ++ "]\n" ++ doc.page_content

/-- The context-assembly loop of `RAGIndex.answer` (lines 203–213): walk
the blocks keeping a running character total; the first block that would
push the total past the budget is dropped entirely and the loop breaks. -/
def assembleBlocks (maxC : Nat) : List String → Nat → List String
  | [], _ => []
  | b :: bs, total =>
    if maxC < total + b.length then []
    else b :: assembleBlocks maxC bs (total + b.length)

/-- The list of context blocks `answer` accumulates for a hit list. -/
def contextBlocks (docs : List Doc) (maxC : Nat) : List String :=
  assembleBlocks maxC (docs.map fmtBlock) 0

/-- The generation prompt assembled by `RAGIndex.answer`. -/
def promptFor (context question : String) : String :=
  "\nYou are a clinical trial protocol expert.\n\nAnswer the question STRICTLY using the context below.\n\nDo NOT speculate, if the information is not there say it is not given in the context.\nDo NOT reference sections or page numbers, just answer based on the content provided.\n\nContext:\n\"\"\"\n"
    ++ context ++ "\n\"\"\"\n\nQuestion: " ++ question ++ "\n\nAnswer:\n"

/-- `RAGIndex.answer`, with the generation collaborator `gen` passed in as
a function: zero fused hits short-circuit to the canonical not-found pair
before any prompt is built; otherwise the bounded context is assembled and
handed to `gen`. -/
def answer (gen : String → String) (documents dense_docs : List Doc)
    (bm25_scores : List ℚ) (question : String)
    (top_k max_context_chars : Nat) : String × String :=
  let docs := hybridSearch documents dense_docs bm25_scores top_k
  if docs.isEmpty then ("Not found in provided context.", "")
  else
    let context := String.intercalate "\n\n" (contextBlocks docs max_context_chars)
    (pyStrip (gen (promptFor context question)), context)

/-! ### Lemmas about the stable descending sort -/

theorem sortDescBy_perm {α : Type} (key : α → ℚ) (l : List α) :
    (sortDescBy key l).Perm l :=
  List.perm_insertionSort _ l

theorem sortDescBy_pairwise {α : Type} (key : α → ℚ) (l : List α) :
    (sortDescBy key l).Pairwise (fun a b => key b ≤ key a) := by
  haveI : IsTotal α (fun a b => key b ≤ key a) :=
    ⟨fun a b => le_total (key b) (key a)⟩
  haveI : IsTrans α (fun a b => key b ≤ key a) :=
    ⟨fun _ _ _ h1 h2 => le_trans h2 h1⟩
  exact List.sorted_insertionSort _ l

/-- Two permuted lists, both sorted descending under a key that is
injective on their elements, are equal: the sorted order is unique. -/
theorem eq_of_perm_sorted_injkey {α : Type} (key : α → ℚ) :
    ∀ l₁ l₂ : List α, l₁.Perm l₂ →
      l₁.Pairwise (fun a b => key b ≤ key a) →
      l₂.Pairwise (fun a b => key b ≤ key a) →
      (∀ a ∈ l₁, ∀ b ∈ l₁, key a = key b → a = b) → l₁ = l₂ := by
  intro l₁
  induction l₁ with
  | nil =>
    intro l₂ hp _ _ _
    exact (List.Perm.nil_eq hp).symm ▸ rfl
  | cons x t ih =>
    intro l₂ hp hs₁ hs₂ hinj
    cases l₂ with
    | nil => exact absurd hp.symm (by simp)
    | cons y t₂ =>
      have hyx : y ∈ x :: t := hp.symm.subset (List.mem_cons_self y t₂)
      have hxy : x ∈ y :: t₂ := hp.subset (List.mem_cons_self x t)
      have hkey : key x = key y := by
        rcases List.mem_cons.1 hyx with h | h
        · exact h ▸ rfl
        · rcases List.mem_cons.1 hxy with h' | h'
          · exact h' ▸ rfl
          · exact le_antisymm ((List.pairwise_cons.1 hs₂).1 x h')
              ((List.pairwise_cons.1 hs₁).1 y h)
      have heq : x = y :=
        hinj x (List.mem_cons_self x t) y hyx hkey
      subst heq
      have ht : t.Perm t₂ := hp.cons_inv
      have := ih t₂ ht (List.pairwise_cons.1 hs₁).2 (List.pairwise_cons.1 hs₂).2
        (fun a ha b hb hk =>
          hinj a (List.mem_cons_of_mem x ha) b (List.mem_cons_of_mem x hb) hk)
      rw [this]

/-- Stable sorting two permutations of the same elements under an
injective-on-elements key gives the same list. -/
theorem sortDescBy_eq_of_perm {α : Type} (key : α → ℚ) (l₁ l₂ : List α)
    (hp : l₁.Perm l₂)
    (hinj : ∀ a ∈ l₁, ∀ b ∈ l₁, key a = key b → a = b) :
    sortDescBy key l₁ = sortDescBy key l₂ := by
  refine eq_of_perm_sorted_injkey key _ _
    ((sortDescBy_perm key l₁).trans (hp.trans (sortDescBy_perm key l₂).symm))
    (sortDescBy_pairwise key l₁) (sortDescBy_pairwise key l₂) ?_
  intro a ha b hb
  exact hinj a ((sortDescBy_perm key l₁).subset ha)
    b ((sortDescBy_perm key l₁).subset hb)

/-! ### The RRF score dictionary computes Σ_source 1/(K + rank) -/

/-- 0-based position of the first window with content `c` in a ranked
list (`rank = position + 1`). -/
def rankOf (docs : List Doc) (c : String) : Option Nat :=
  docs.findIdx? (fun d => d.page_content = c)

/-- The per-source RRF contribution of the spec: `1/(K + rank)` at the
1-based rank when present, 0 when absent. -/
def contrib (docs : List Doc) (c : String) : ℚ :=
  match rankOf docs c with
  | some i => 1 / (kParam + (i + 1 : ℚ))
  | none => 0

/-- What the scoring loop adds for content `c`: one term per occurrence,
ranks counted from `rank`. -/
def contribSumAux (rank : Nat) : List Doc → String → ℚ
  | [], _ => 0
  | doc :: rest, c =>
    (if doc.page_content = c then 1 / (kParam + (rank : ℚ)) else 0) +
      contribSumAux (rank + 1) rest c

theorem scoreOf_bump (d : List (String × ℚ)) (k t : String) (inc : ℚ) :
    scoreOf (bump d k inc) t = scoreOf d t + if t = k then inc else 0 := by
  unfold scoreOf bump
  rw [dictGet_dictSet]
  by_cases h : t = k
  · subst h; simp
  · simp [h]

theorem scoreOf_scoreDocsAux (c : String) :
    ∀ (docs : List Doc) (rank : Nat) (init : List (String × ℚ)),
      scoreOf (scoreDocsAux rank init docs) c =
        scoreOf init c + contribSumAux rank docs c := by
  intro docs
  induction docs with
  | nil => intro rank init; simp [scoreDocsAux, contribSumAux]
  | cons doc rest ih =>
    intro rank init
    simp only [scoreDocsAux, contribSumAux, ih, scoreOf_bump]
    by_cases h : doc.page_content = c
    · rw [if_pos h.symm, if_pos h]; ring
    · rw [if_neg (fun hh => h hh.symm), if_neg h]; ring

/-- Without any content in the list, the loop adds nothing. -/
theorem contribSumAux_eq_zero (c : String) :
    ∀ (docs : List Doc) (rank : Nat),
      c ∉ docs.map (·.page_content) → contribSumAux rank docs c = 0 := by
  intro docs
  induction docs with
  | nil => intro rank _; rfl
  | cons doc rest ih =>
    intro rank hc
    rw [List.map_cons, List.mem_cons] at hc
    push_neg at hc
    have h : ¬ doc.page_content = c := fun hh => hc.1 hh.symm
    simp [contribSumAux, h, ih rank.succ hc.2]

/-- On a list whose contents are distinct, the loop's total for `c` is
exactly the spec's `1/(K + rank)` at the unique 1-based rank of `c`. -/
theorem contribSumAux_eq_contrib (c : String) :
    ∀ (docs : List Doc) (rank : Nat),
      (docs.map (·.page_content)).Nodup →
      contribSumAux rank docs c =
        (match rankOf docs c with
          | some i => 1 / (kParam + (rank + i : ℚ))
          | none => 0) := by
  intro docs
  induction docs with
  | nil => intro rank _; simp [contribSumAux, rankOf]
  | cons doc rest ih =>
    intro rank hnd
    rw [List.map_cons, List.nodup_cons] at hnd
    by_cases h : doc.page_content = c
    · have hrest : c ∉ rest.map (·.page_content) := h ▸ hnd.1
      simp [contribSumAux, rankOf, h, contribSumAux_eq_zero c rest (rank + 1) hrest]
    · have hshift : rankOf (doc :: rest) c = (rankOf rest c).map (· + 1) := by
        unfold rankOf
        rw [List.findIdx?_cons, if_neg (by simp [h])]
        exact List.findIdx?_succ
      simp only [contribSumAux, if_neg h, zero_add]
      rw [ih (rank + 1) hnd.2, hshift]
      cases hidx : rankOf rest c with
      | none => rfl
      | some i =>
        dsimp only [Option.map_some']
        congr 1
        push_cast
        ring

/-- `contribSumAux 1` is the spec's contribution on a nodup ranked list. -/
theorem contribSum_one_eq_contrib (docs : List Doc) (c : String)
    (h : (docs.map (·.page_content)).Nodup) :
    contribSumAux 1 docs c = contrib docs c := by
  rw [contribSumAux_eq_contrib c docs 1 h]
  unfold contrib
  cases hidx : rankOf docs c with
  | none => rfl
  | some i =>
    dsimp only
    congr 1
    push_cast
    ring

/-- The fused score of any content is the sum of what the two passes add. -/
theorem scoreOf_rrfScores (dense_docs bm25_docs : List Doc) (c : String) :
    scoreOf (rrfScores dense_docs bm25_docs) c =
      contribSumAux 1 dense_docs c + contribSumAux 1 bm25_docs c := by
  unfold rrfScores scoreDocs
  rw [scoreOf_scoreDocsAux, scoreOf_scoreDocsAux]
  simp [scoreOf, dictGet]

/-! ### Lemmas about the deduplication pass -/

theorem dictGet_eq_none_iff {β : Type} (d : List (String × β)) (k : String) :
    dictGet d k = none ↔ k ∉ d.map (·.1) := by
  induction d with
  | nil => simp [dictGet]
  | cons p rest ih =>
    by_cases h : p.1 = k
    · simp [dictGet, h]
    · have h' : ¬ k = p.1 := fun hh => h hh.symm
      simp [dictGet, h, h', ih]

theorem dictGet_isSome_iff {β : Type} (d : List (String × β)) (k : String) :
    (dictGet d k).isSome ↔ k ∈ d.map (·.1) := by
  have := dictGet_eq_none_iff d k
  cases h : dictGet d k <;> simp_all

theorem mem_uniqueDocsAux_of_mem_acc :
    ∀ (docs : List Doc) (acc : List (String × Doc)) (p : String × Doc),
      p ∈ acc → p ∈ uniqueDocsAux acc docs := by
  intro docs
  induction docs with
  | nil => intro acc p hp; exact hp
  | cons doc rest ih =>
    intro acc p hp
    unfold uniqueDocsAux
    by_cases h : (dictGet acc doc.page_content).isSome
    · rw [if_pos h]; exact ih acc p hp
    · rw [if_neg h]; exact ih _ p (List.mem_append_left _ hp)

theorem mem_uniqueDocsAux :
    ∀ (docs : List Doc) (acc : List (String × Doc)) (p : String × Doc),
      p ∈ uniqueDocsAux acc docs →
      p ∈ acc ∨ (p.2 ∈ docs ∧ p.1 = p.2.page_content) := by
  intro docs
  induction docs with
  | nil => intro acc p hp; exact Or.inl hp
  | cons doc rest ih =>
    intro acc p hp
    unfold uniqueDocsAux at hp
    by_cases h : (dictGet acc doc.page_content).isSome
    · rw [if_pos h] at hp
      rcases ih acc p hp with h' | h'
      · exact Or.inl h'
      · exact Or.inr ⟨List.mem_cons_of_mem _ h'.1, h'.2⟩
    · rw [if_neg h] at hp
      rcases ih _ p hp with h' | h'
      · rcases List.mem_append.1 h' with h'' | h''
        · exact Or.inl h''
        · have hpd : p = (doc.page_content, doc) := by simpa using h''
          subst hpd
          exact Or.inr ⟨List.mem_cons_self _ _, rfl⟩
      · exact Or.inr ⟨List.mem_cons_of_mem _ h'.1, h'.2⟩

theorem keys_uniqueDocsAux_nodup :
    ∀ (docs : List Doc) (acc : List (String × Doc)),
      (acc.map (·.1)).Nodup → ((uniqueDocsAux acc docs).map (·.1)).Nodup := by
  intro docs
  induction docs with
  | nil => intro acc h; exact h
  | cons doc rest ih =>
    intro acc h
    unfold uniqueDocsAux
    by_cases hs : (dictGet acc doc.page_content).isSome
    · rw [if_pos hs]; exact ih acc h
    · rw [if_neg hs]
      refine ih _ ?_
      have hnot : doc.page_content ∉ acc.map (·.1) := by
        rw [← dictGet_eq_none_iff]
        exact Option.not_isSome_iff_eq_none.1 hs
      rw [List.map_append]
      simp [List.nodup_append, h, hnot]

theorem mem_keys_uniqueDocsAux :
    ∀ (docs : List Doc) (acc : List (String × Doc)) (c : String),
      c ∈ (uniqueDocsAux acc docs).map (·.1) ↔
        c ∈ acc.map (·.1) ∨ c ∈ docs.map (·.page_content) := by
  intro docs
  induction docs with
  | nil => intro acc c; simp [uniqueDocsAux]
  | cons doc rest ih =>
    intro acc c
    unfold uniqueDocsAux
    by_cases hs : (dictGet acc doc.page_content).isSome
    · rw [if_pos hs, ih]
      have hmem : doc.page_content ∈ acc.map (·.1) :=
        (dictGet_isSome_iff acc doc.page_content).1 hs
      rw [List.map_cons, List.mem_cons]
      constructor
      · rintro (h | h)
        · exact Or.inl h
        · exact Or.inr (Or.inr h)
      · rintro (h | h | h)
        · exact Or.inl h
        · exact Or.inl (h ▸ hmem)
        · exact Or.inr h
    · rw [if_neg hs, ih]
      simp only [List.map_append, List.mem_append, List.map_cons, List.map_nil,
        List.mem_cons, List.mem_singleton, List.not_mem_nil, or_false]
      tauto

theorem firstOcc_mem_uniqueDocsAux :
    ∀ (docs : List Doc) (acc : List (String × Doc)) (doc : Doc),
      doc ∈ docs →
      (∀ y ∈ docs, y.page_content = doc.page_content → y = doc) →
      doc.page_content ∈ acc.map (·.1) ∨
        (doc.page_content, doc) ∈ uniqueDocsAux acc docs := by
  intro docs
  induction docs with
  | nil => intro acc doc h _; exact absurd h (List.not_mem_nil _)
  | cons x rest ih =>
    intro acc doc hmem hdet
    unfold uniqueDocsAux
    by_cases hs : (dictGet acc x.page_content).isSome
    · rw [if_pos hs]
      rcases List.mem_cons.1 hmem with heq | hmem'
      · subst heq
        exact Or.inl ((dictGet_isSome_iff acc _).1 hs)
      · exact ih acc doc hmem' (fun y hy => hdet y (List.mem_cons_of_mem _ hy))
    · rw [if_neg hs]
      rcases List.mem_cons.1 hmem with heq | hmem'
      · subst heq
        exact Or.inr (mem_uniqueDocsAux_of_mem_acc rest _ _ (by simp))
      · by_cases hc : x.page_content = doc.page_content
        · have hx : x = doc := hdet x (List.mem_cons_self _ _) hc
          subst hx
          exact Or.inr (mem_uniqueDocsAux_of_mem_acc rest _ _ (by simp))
        · rcases ih (acc ++ [(x.page_content, x)]) doc hmem'
            (fun y hy => hdet y (List.mem_cons_of_mem _ hy)) with h | h
          · rw [List.map_append] at h
            rcases List.mem_append.1 h with h' | h'
            · exact Or.inl h'
            · have hcc : doc.page_content = x.page_content := by simpa using h'
              exact absurd hcc.symm hc
          · exact Or.inr h

/-- Characterisation of the deduplicated pair list when equal contents
mean equal documents: it holds exactly the documents of the input, each
keyed by its content. -/
theorem mem_uniqueDocs_iff (docs : List Doc)
    (hdet : ∀ x ∈ docs, ∀ y ∈ docs, x.page_content = y.page_content → x = y)
    (p : String × Doc) :
    p ∈ uniqueDocs docs ↔ p.2 ∈ docs ∧ p.1 = p.2.page_content := by
  constructor
  · intro hp
    rcases mem_uniqueDocsAux docs [] p hp with h | h
    · exact absurd h (List.not_mem_nil p)
    · exact h
  · rintro ⟨hmem, hkey⟩
    obtain ⟨c, d⟩ := p
    dsimp only at hkey hmem
    subst hkey
    rcases firstOcc_mem_uniqueDocsAux docs [] d hmem
      (fun y hy hc => hdet y hy d hmem hc) with h | h
    · simp at h
    · exact h

theorem rankOf_eq_none_iff (docs : List Doc) (c : String) :
    rankOf docs c = none ↔ c ∉ docs.map (·.page_content) := by
  unfold rankOf
  rw [List.findIdx?_eq_none_iff]
  constructor
  · intro h hc
    rcases List.mem_map.1 hc with ⟨d, hd, hdc⟩
    have := h d hd
    simp [hdc] at this
  · intro h d hd
    by_cases hdc : d.page_content = c
    · exact absurd (List.mem_map.2 ⟨d, hd, hdc⟩) h
    · simp [hdc]

/-- Prefix characterisation of the context-assembly loop. -/
theorem assembleBlocks_spec (maxC : Nat) :
    ∀ (bs : List String) (total : Nat), total ≤ maxC →
      ∃ n, assembleBlocks maxC bs total = bs.take n
        ∧ total + ((bs.take n).map String.length).sum ≤ maxC
        ∧ (n = bs.length ∨ (n < bs.length ∧
            maxC < total + ((bs.take n).map String.length).sum
              + (bs.getD n "").length)) := by
  intro bs
  induction bs with
  | nil =>
    intro total htotal
    exact ⟨0, rfl, by simpa using htotal, Or.inl rfl⟩
  | cons b rest ih =>
    intro total htotal
    by_cases hgt : maxC < total + b.length
    · refine ⟨0, ?_, by simpa using htotal, Or.inr ⟨by simp, ?_⟩⟩
      · simp [assembleBlocks, hgt]
      · simpa using hgt
    · push_neg at hgt
      obtain ⟨n, h1, h2, h3⟩ := ih (total + b.length) hgt
      refine ⟨n + 1, ?_, ?_, ?_⟩
      · simp [assembleBlocks, Nat.not_lt.2 hgt, h1]
      · simpa [Nat.add_assoc] using h2
      · rcases h3 with h3 | ⟨h3, h4⟩
        · exact Or.inl (by simp [h3])
        · refine Or.inr ⟨by simpa using Nat.succ_lt_succ h3, ?_⟩
          simpa [Nat.add_assoc] using h4

/-! ### Concrete windows used in witnesses and counterexamples -/

def wA : Doc := ⟨"a", "t"⟩

def wB : Doc := ⟨"b", "t"⟩

def wC : Doc := ⟨"c", "t"⟩

def wD : Doc := ⟨"d", "t"⟩

/-! ### Claim theorems for the hybrid retriever -/

/-- C6: during context assembly in `answer`, hits are visited in fused
rank order and formatted as labeled blocks; blocks accumulate under the
character budget, the first block that would exceed it is dropped whole
and accumulation stops, so the included blocks are a prefix of the block
list whose total length never exceeds the budget (and either all blocks
fit or the next block would overflow). -/
theorem answer_context_budget (docs : List Doc) (maxC : Nat) :
    ∃ n, contextBlocks docs maxC = (docs.map fmtBlock).take n
      ∧ (((docs.map fmtBlock).take n).map String.length).sum ≤ maxC
      ∧ (n = docs.length ∨ (n < docs.length ∧
          maxC < (((docs.map fmtBlock).take n).map String.length).sum
            + ((docs.map fmtBlock).getD n "").length)) := by
  obtain ⟨n, h1, h2, h3⟩ :=
    assembleBlocks_spec maxC (docs.map fmtBlock) 0 (Nat.zero_le _)
  exact ⟨n, h1, by simpa using h2, by simpa using h3⟩

/-- C4: when the dense search and the lexical search both return zero
hits, `answer` returns the canonical "not found in provided context"
result with empty context, independently of the generation collaborator
(`gen` is never applied). -/
theorem answer_not_found (gen : String → String)
    (documents dense_docs : List Doc) (bm25_scores : List ℚ)
    (question : String) (top_k max_context_chars : Nat)
    (hdense : dense_docs = [])
    (hbm : bm25TopDocs documents bm25_scores top_k = []) :
    hybridSearch documents dense_docs bm25_scores top_k = []
    ∧ answer gen documents dense_docs bm25_scores question top_k
        max_context_chars = ("Not found in provided context.", "") := by
  subst hdense
  have h1 : hybridSearch documents [] bm25_scores top_k = [] := by
    simp [hybridSearch, hbm, rrfFuse, uniqueDocs, uniqueDocsAux, sortDescBy,
      List.insertionSort]
  exact ⟨h1, by simp [answer, h1]⟩

/-- Witness for C4 at concrete inputs. -/
theorem answer_not_found_witness :
    ([] : List Doc) = [] ∧ bm25TopDocs [] [] 5 = []
    ∧ answer (fun s => s) [] [] [] "q" 5 5000
        = ("Not found in provided context.", "") :=
  ⟨rfl, by decide,
    (answer_not_found (fun s => s) [] [] [] "q" 5 5000 rfl (by decide)).2⟩

/-- Counterexample to C1 as stated: with dense list `[wA, wB]` and
lexical list `[wC, wD]` and `top_k = 2`, the window `wD` appears only in
the lexical list (rank 2), receives fused score exactly `1/62`, yet is
absent from the fused output — the "still appears" clause fails once the
`top_k` cap bites. -/
theorem hybrid_lexical_only_dropped :
    rankOf [wA, wB] "d" = none
    ∧ rankOf [wC, wD] "d" = some 1
    ∧ scoreOf (rrfScores [wA, wB] [wC, wD]) "d" = 1 / 62
    ∧ wD ∉ rrfFuse [wA, wB] [wC, wD] 2 := by
  have hout : rrfFuse [wA, wB] [wC, wD] 2 = [wA, wC] := by
    norm_num +decide [rrfFuse, rrfScores, scoreDocs, scoreDocsAux, bump,
      dictGet, dictSet, kParam, uniqueDocs, uniqueDocsAux, sortDescBy,
      List.insertionSort, List.orderedInsert, scoreOf, wA, wB, wC, wD]
  refine ⟨by decide, by decide, ?_, ?_⟩
  · norm_num +decide [scoreOf, rrfScores, scoreDocs, scoreDocsAux, bump,
      dictGet, dictSet, kParam, wA, wB, wC, wD]
  · rw [hout]; decide

/-- Counterexample to C7 as stated: fusion is not symmetric in input
order when fused scores tie — a single-document dense list and a
single-document lexical list swap places when the inputs swap, because
the tie-break follows first-encounter (first-list-first) order. -/
theorem rrfFuse_not_symm :
    rrfFuse [wA] [wB] 2 = [wA, wB]
    ∧ rrfFuse [wB] [wA] 2 = [wB, wA]
    ∧ ([wA, wB] : List Doc) ≠ [wB, wA] := by
  refine ⟨?_, ?_, by decide⟩ <;>
    norm_num +decide [rrfFuse, rrfScores, scoreDocs, scoreDocsAux, bump,
      dictGet, dictSet, kParam, uniqueDocs, uniqueDocsAux, sortDescBy,
      List.insertionSort, List.orderedInsert, scoreOf, wA, wB]

/-- C1 (amended): hybrid retrieval fuses the two ranked lists by RRF —
when each source ranks distinct windows, every content's fused score is
the sum over the two sources of `1/(60 + rank)` at its 1-based rank
(0 when absent); a window appearing only in the lexical list at 0-based
position `i` receives fused score exactly `1/(60 + (i+1))`, and it
appears in the fused output whenever the deduplicated candidate set fits
within `top_k` (the cap can otherwise drop it). -/
theorem hybrid_rrf_score_formula (dense_docs bm25_docs : List Doc)
    (top_k : Nat)
    (hd : (dense_docs.map (·.page_content)).Nodup)
    (hl : (bm25_docs.map (·.page_content)).Nodup) :
    (∀ c, scoreOf (rrfScores dense_docs bm25_docs) c =
        contrib dense_docs c + contrib bm25_docs c)
    ∧ ∀ doc ∈ bm25_docs, ∀ i,
        rankOf dense_docs doc.page_content = none →
        rankOf bm25_docs doc.page_content = some i →
        scoreOf (rrfScores dense_docs bm25_docs) doc.page_content =
          1 / (kParam + (i + 1 : ℚ))
        ∧ ((uniqueDocs (dense_docs ++ bm25_docs)).length ≤ top_k →
            doc ∈ rrfFuse dense_docs bm25_docs top_k) := by
  have hform : ∀ c, scoreOf (rrfScores dense_docs bm25_docs) c =
      contrib dense_docs c + contrib bm25_docs c := by
    intro c
    rw [scoreOf_rrfScores, contribSum_one_eq_contrib _ _ hd,
      contribSum_one_eq_contrib _ _ hl]
  refine ⟨hform, ?_⟩
  intro doc hdoc i hnone hsome
  constructor
  · rw [hform doc.page_content]
    unfold contrib
    rw [hnone, hsome]
    simp
  · intro hcap
    have hdet1 : ∀ y ∈ dense_docs ++ bm25_docs,
        y.page_content = doc.page_content → y = doc := by
      intro y hy hyc
      rcases List.mem_append.1 hy with hy | hy
      · exact absurd (List.mem_map.2 ⟨y, hy, hyc⟩)
          ((rankOf_eq_none_iff _ _).1 hnone)
      · exact List.inj_on_of_nodup_map hl hy hdoc hyc
    have hpair : (doc.page_content, doc) ∈
        uniqueDocs (dense_docs ++ bm25_docs) := by
      rcases firstOcc_mem_uniqueDocsAux (dense_docs ++ bm25_docs) [] doc
        (List.mem_append_right _ hdoc) hdet1 with h | h
      · simp at h
      · exact h
    simp only [rrfFuse]
    have hlen : (sortDescBy
        (fun p => scoreOf (rrfScores dense_docs bm25_docs) p.1)
        (uniqueDocs (dense_docs ++ bm25_docs))).length ≤ top_k := by
      rw [(sortDescBy_perm _ _).length_eq]
      exact hcap
    rw [List.take_of_length_le hlen]
    exact List.mem_map_of_mem _ ((sortDescBy_perm _ _).mem_iff.2 hpair)

/-- Witness for C1 (amended) at concrete inputs: dense list `[wA]`,
lexical list `[wB]`, `top_k = 2`. -/
theorem hybrid_rrf_score_formula_witness :
    scoreOf (rrfScores [wA] [wB]) wB.page_content = 1 / (kParam + (0 + 1 : ℚ))
    ∧ wB ∈ rrfFuse [wA] [wB] 2 := by
  have h := hybrid_rrf_score_formula [wA] [wB] 2 (by decide) (by decide)
  have h2 := h.2 wB (by decide) 0 (by decide) (by decide)
  exact ⟨h2.1, h2.2 (by decide)⟩

/-- C7 (amended): fused scores are symmetric in the order of the two
source lists; the ranked output lists agree whenever no two distinct
windows tie on fused score (content determining the document across the
two lists) — under ties the stable sort breaks them by first-encounter
merge order, which is input-order dependent. -/
theorem rrfFuse_input_order (d l : List Doc) (k : Nat) :
    (∀ c, scoreOf (rrfScores d l) c = scoreOf (rrfScores l d) c)
    ∧ ((∀ x ∈ d ++ l, ∀ y ∈ d ++ l,
          x.page_content = y.page_content → x = y) →
       (∀ x ∈ d ++ l, ∀ y ∈ d ++ l, x.page_content ≠ y.page_content →
          scoreOf (rrfScores d l) x.page_content ≠
            scoreOf (rrfScores d l) y.page_content) →
       rrfFuse d l k = rrfFuse l d k) := by
  have hsym : ∀ c, scoreOf (rrfScores d l) c = scoreOf (rrfScores l d) c := by
    intro c
    rw [scoreOf_rrfScores, scoreOf_rrfScores, add_comm]
  refine ⟨hsym, ?_⟩
  intro hdet hties
  have hdet' : ∀ x ∈ l ++ d, ∀ y ∈ l ++ d,
      x.page_content = y.page_content → x = y := by
    intro x hx y hy
    rw [List.mem_append] at hx hy
    exact hdet x (List.mem_append.2 hx.symm) y (List.mem_append.2 hy.symm)
  have hkn1 : ((uniqueDocs (d ++ l)).map (·.1)).Nodup :=
    keys_uniqueDocsAux_nodup (d ++ l) [] (by simp)
  have hn1 : (uniqueDocs (d ++ l)).Nodup := List.Nodup.of_map (·.1) hkn1
  have hn2 : (uniqueDocs (l ++ d)).Nodup :=
    List.Nodup.of_map (·.1) (keys_uniqueDocsAux_nodup (l ++ d) [] (by simp))
  have hmemiff : ∀ p, p ∈ uniqueDocs (d ++ l) ↔ p ∈ uniqueDocs (l ++ d) := by
    intro p
    rw [mem_uniqueDocs_iff _ hdet p, mem_uniqueDocs_iff _ hdet' p]
    constructor <;> rintro ⟨hm, hk⟩ <;>
      exact ⟨List.mem_append.2 (List.mem_append.1 hm).symm, hk⟩
  have hperm : (uniqueDocs (d ++ l)).Perm (uniqueDocs (l ++ d)) :=
    (List.perm_ext_iff_of_nodup hn1 hn2).2 hmemiff
  simp only [rrfFuse]
  have hfun : (fun p : String × Doc => scoreOf (rrfScores l d) p.1)
      = fun p : String × Doc => scoreOf (rrfScores d l) p.1 :=
    funext fun p => (hsym p.1).symm
  rw [hfun]
  have hsorteq : sortDescBy
      (fun p : String × Doc => scoreOf (rrfScores d l) p.1)
      (uniqueDocs (d ++ l))
      = sortDescBy (fun p : String × Doc => scoreOf (rrfScores d l) p.1)
        (uniqueDocs (l ++ d)) := by
    apply sortDescBy_eq_of_perm _ _ _ hperm
    intro a ha b hb hkey
    obtain ⟨ham, hak⟩ := (mem_uniqueDocs_iff _ hdet a).1 ha
    obtain ⟨hbm, hbk⟩ := (mem_uniqueDocs_iff _ hdet b).1 hb
    by_cases hc : a.1 = b.1
    · exact List.inj_on_of_nodup_map hkn1 ha hb hc
    · exfalso
      have hneq : a.2.page_content ≠ b.2.page_content := by
        rw [← hak, ← hbk]; exact hc
      have := hties a.2 ham b.2 hbm hneq
      rw [← hak, ← hbk] at this
      exact this hkey
  rw [hsorteq]

/-- Witness for C7 (amended) at concrete inputs with no score ties. -/
theorem rrfFuse_input_order_witness :
    rrfFuse [wA, wB] [wA] 2 = rrfFuse [wA] [wA, wB] 2 := by
  refine (rrfFuse_input_order [wA, wB] [wA] 2).2 (by decide) ?_
  norm_num +decide [scoreOf, rrfScores, scoreDocs, scoreDocsAux, bump,
    dictGet, dictSet, kParam, wA, wB]

/-- Everything `rrfFuse` returns comes from the two source lists, with at
most `top_k` results and pairwise-distinct contents. -/
theorem rrfFuse_basic (d l : List Doc) (k : Nat) :
    (rrfFuse d l k).length ≤ k
    ∧ ((rrfFuse d l k).map (·.page_content)).Nodup
    ∧ ∀ x ∈ rrfFuse d l k, x ∈ d ++ l := by
  simp only [rrfFuse]
  refine ⟨?_, ?_, ?_⟩
  · rw [List.length_map, List.length_take]
    exact Nat.min_le_left _ _
  · have hknd : ((uniqueDocs (d ++ l)).map (·.1)).Nodup :=
      keys_uniqueDocsAux_nodup (d ++ l) [] (by simp)
    have hsnd : ((sortDescBy
        (fun p => scoreOf (rrfScores d l) p.1)
        (uniqueDocs (d ++ l))).map (·.1)).Nodup := by
      have hperm := (sortDescBy_perm
        (fun p : String × Doc => scoreOf (rrfScores d l) p.1)
        (uniqueDocs (d ++ l))).map (fun p : String × Doc => p.1)
      exact hperm.nodup_iff.2 hknd
    have hcongr : ∀ p ∈ (sortDescBy
        (fun p => scoreOf (rrfScores d l) p.1)
        (uniqueDocs (d ++ l))).take k, p.1 = p.2.page_content := by
      intro p hp
      have hp' : p ∈ uniqueDocs (d ++ l) :=
        (sortDescBy_perm _ _).subset (List.mem_of_mem_take hp)
      rcases mem_uniqueDocsAux (d ++ l) [] p hp' with h | h
      · exact absurd h (List.not_mem_nil p)
      · exact h.2
    have hmm : (((sortDescBy
        (fun p => scoreOf (rrfScores d l) p.1)
        (uniqueDocs (d ++ l))).take k).map (·.2)).map (·.page_content)
        = ((sortDescBy
          (fun p => scoreOf (rrfScores d l) p.1)
          (uniqueDocs (d ++ l))).take k).map (·.1) := by
      rw [List.map_map]
      exact List.map_congr_left fun p hp => (hcongr p hp).symm
    rw [hmm, List.map_take]
    exact (List.take_sublist _ _).nodup hsnd
  · intro x hx
    rcases List.mem_map.1 hx with ⟨p, hp, hpx⟩
    have hp' : p ∈ uniqueDocs (d ++ l) :=
      (sortDescBy_perm _ _).subset (List.mem_of_mem_take hp)
    rcases mem_uniqueDocsAux (d ++ l) [] p hp' with h | h
    · exact absurd h (List.not_mem_nil p)
    · exact hpx ▸ h.1

/-- C5: hybrid retrieval returns at most `top_k` hits, no two of which
share a window content (hence no window is returned twice), and every hit
is one of the indexed documents — nothing is synthesized.  `dense_docs`
is the FAISS result (drawn from the store's documents) and `bm25_scores`
has one score per indexed document. -/
theorem hybridSearch_invariants (documents dense_docs : List Doc)
    (bm25_scores : List ℚ) (top_k : Nat)
    (hdense : ∀ dd ∈ dense_docs, dd ∈ documents)
    (hlen : bm25_scores.length = documents.length) :
    (hybridSearch documents dense_docs bm25_scores top_k).length ≤ top_k
    ∧ ((hybridSearch documents dense_docs bm25_scores top_k).map
        (·.page_content)).Nodup
    ∧ ∀ dd ∈ hybridSearch documents dense_docs bm25_scores top_k,
        dd ∈ documents := by
  have hb : ∀ dd ∈ bm25TopDocs documents bm25_scores top_k,
      dd ∈ documents := by
    intro dd hdd
    simp only [bm25TopDocs] at hdd
    rcases List.mem_map.1 hdd with ⟨i, hi, hgi⟩
    have hi' : i ∈ List.range bm25_scores.length :=
      (sortDescBy_perm _ _).subset (List.mem_of_mem_take hi)
    have hilt : i < documents.length := by
      rw [← hlen]; exact List.mem_range.1 hi'
    rw [← hgi, List.getD_eq_getElem?_getD, List.getElem?_eq_getElem hilt]
    simp only [Option.getD_some]
    exact List.getElem_mem hilt
  obtain ⟨h1, h2, h3⟩ :=
    rrfFuse_basic dense_docs (bm25TopDocs documents bm25_scores top_k) top_k
  refine ⟨h1, h2, ?_⟩
  intro dd hdd
  rcases List.mem_append.1 (h3 dd hdd) with h | h
  · exact hdense dd h
  · exact hb dd h

/-- Witness for C5 at concrete inputs. -/
theorem hybridSearch_invariants_witness :
    (hybridSearch [wA, wB] [wA] [1, 0] 1).length ≤ 1
    ∧ ((hybridSearch [wA, wB] [wA] [1, 0] 1).map (·.page_content)).Nodup
    ∧ ∀ dd ∈ hybridSearch [wA, wB] [wA] [1, 0] 1, dd ∈ [wA, wB] :=
  hybridSearch_invariants [wA, wB] [wA] [1, 0] 1 (by decide) (by decide)

/-! ### `multiagent.py` — the router's defensive post-processing -/

/-- A JSON value as far as the router inspects one (`json.loads` output).
`jother` stands for floats, arrays, objects and null, none of which pass
the string or int checks below. -/
inductive JVal : Type
  | jstr (s : String)
  | jint (n : Int)
  | jbool (b : Bool)
  | jother
deriving DecidableEq

/-- Python `isinstance(v, int)` on a looked-up JSON value: true for ints
and — `bool` being a subclass of `int` in Python — for booleans; an
absent key (`None`) and every other value fail. -/
def isIntInstance : Option JVal → Bool
  | some (JVal.jint _) => true
  | some (JVal.jbool _) => true
  | _ => false

/-- The fixed six-label route set checked by `_route_question`. -/
def knownRoutes : List String :=
  ["objectives", "eligibility", "soa", "visit_definitions",
    "key_assessments", "rag"]

/-- `data.get("route") in {...}`: only a string equal to one of the known
labels passes. -/
def routeOk : Option JVal → Bool
  | some (JVal.jstr s) => decide (s ∈ knownRoutes)
  | _ => false

/-- The fallback decision literal returned by `_route_question`. -/
def fallbackDecision : List (String × JVal) :=
  [("route", JVal.jstr "rag"), ("reason", JVal.jstr "fallback"),
    ("top_k", JVal.jint 5)]

/-- The dict branch of `_route_question` (`multiagent.py` lines 158–171):
when the parsed payload is a dict, an empty dict or a missing `"route"`
key yields the fallback decision, an unknown or non-string route is
overwritten with `"rag"`, and a `top_k` that is not a Python `int` is
overwritten with 5.  (`routeQuestionFull` below extends this to every
payload `_safe_json_loads` can produce.) -/
def routeQuestion (data : List (String × JVal)) : List (String × JVal) :=
  if data = [] ∨ (dictGet data "route").isNone then fallbackDecision
  else
    let d1 := if routeOk (dictGet data "route") then data
      else dictSet data "route" (JVal.jstr "rag")
    if isIntInstance (dictGet d1 "top_k") then d1
    else dictSet d1 "top_k" (JVal.jint 5)

/-- The exceptions `_route_question` can raise after a successful
`_safe_json_loads` (which only swallows `JSONDecodeError`). -/
inductive PyError : Type
  | typeError
  | attributeError
deriving DecidableEq

/-- A payload `_safe_json_loads` can hand to the rest of
`_route_question`: any top-level JSON value — dict, list, string,
integer, float (as an exact rational; only its truthiness is ever used),
boolean or null — with `jdict []` also standing for the `{}` returned on
a `JSONDecodeError`. -/
inductive JPayload : Type
  | jdict (d : List (String × JVal))
  | jlistv (l : List JVal)
  | jstrv (s : String)
  | jintv (n : Int)
  | jfloatv (x : ℚ)
  | jboolv (b : Bool)
  | jnull
deriving DecidableEq

/-- Python truthiness of the payload (`not data` is its negation): empty
containers, the empty string, zero numbers, `False` and `None` are
falsy. -/
def pyTruthy : JPayload → Bool
  | JPayload.jdict d => !d.isEmpty
  | JPayload.jlistv l => !l.isEmpty
  | JPayload.jstrv s => !s.isEmpty
  | JPayload.jintv n => decide (n ≠ 0)
  | JPayload.jfloatv x => decide (x ≠ 0)
  | JPayload.jboolv b => b
  | JPayload.jnull => false

/-- Python substring containment `needle in haystack` for strings. -/
def containsSub (needle hay : List Char) : Bool :=
  (List.range (hay.length + 1)).any (fun i => needle.isPrefixOf (hay.drop i))

/-- Python `"route" in data` on the payload: key lookup for a dict,
substring search for a string, element equality for a list (a JSON value
equals the string `"route"` only if it is that very string), and a
`TypeError` for numbers and booleans, which are not iterable (`None`
never reaches this check: it is falsy). -/
def routeIn : JPayload → Except PyError Bool
  | JPayload.jdict d => Except.ok (dictGet d "route").isSome
  | JPayload.jstrv s => Except.ok (containsSub "route".data s.data)
  | JPayload.jlistv l => Except.ok (decide (JVal.jstr "route" ∈ l))
  | _ => Except.error PyError.typeError

/-- `_route_question` (`multiagent.py` lines 154–171) on the full range
of parsed payloads; the classifier call itself is the external boundary.
`if not data or "route" not in data` short-circuits, so a falsy payload
returns the fallback before the membership test can raise; a truthy
number or boolean raises `TypeError` at `"route" not in data`; a truthy
string or list in which `"route"` is found passes that test and then
raises `AttributeError` at `data.get("route")`; only a dict reaches the
defensive normalization. -/
def routeQuestionFull (data : JPayload) :
    Except PyError (List (String × JVal)) :=
  if pyTruthy data = false then Except.ok fallbackDecision
  else
    match routeIn data with
    | Except.error e => Except.error e
    | Except.ok false => Except.ok fallbackDecision
    | Except.ok true =>
      match data with
      | JPayload.jdict d => Except.ok (routeQuestion d)
      | _ => Except.error PyError.attributeError

/-- Counterexample to C2 as stated: a dict payload with a known route
and the hint `0` — an integer but not a positive one — is returned
unchanged (the router only checks `isinstance(top_k, int)`), and a
well-formed string payload containing `"route"` makes the router raise
`AttributeError` instead of substituting any default. -/
theorem router_not_defensive :
    routeQuestionFull
        (JPayload.jdict [("route", JVal.jstr "rag"), ("top_k", JVal.jint 0)])
      = Except.ok [("route", JVal.jstr "rag"), ("top_k", JVal.jint 0)]
    ∧ routeQuestionFull (JPayload.jstrv "my route")
      = Except.error PyError.attributeError := by
  refine ⟨rfl, rfl⟩

/-- Every decision the dict branch returns carries a known route label
and an `int`-typed `top_k`; the empty dict (also standing for a
`JSONDecodeError`) yields the fallback decision. -/
theorem routeQuestion_dict_guarantees (data : List (String × JVal)) :
    (∃ s, dictGet (routeQuestion data) "route" = some (JVal.jstr s)
      ∧ s ∈ knownRoutes)
    ∧ isIntInstance (dictGet (routeQuestion data) "top_k") = true
    ∧ routeQuestion [] = fallbackDecision := by
  refine ⟨?_, ?_, by decide⟩ <;> unfold routeQuestion <;>
    by_cases hfb : data = [] ∨ (dictGet data "route").isNone
  · rw [if_pos hfb]
    exact ⟨"rag", by decide, by decide⟩
  · rw [if_neg hfb]
    push_neg at hfb
    have hroute : ∃ s, dictGet (if routeOk (dictGet data "route") then data
        else dictSet data "route" (JVal.jstr "rag")) "route"
        = some (JVal.jstr s) ∧ s ∈ knownRoutes := by
      by_cases hok : routeOk (dictGet data "route")
      · rw [if_pos hok]
        cases hv : dictGet data "route" with
        | none => rw [hv] at hok; exact absurd hok (by decide)
        | some v =>
          cases v with
          | jstr s =>
            refine ⟨s, rfl, ?_⟩
            rw [hv] at hok
            exact of_decide_eq_true hok
          | jint n => rw [hv] at hok; exact absurd hok (by simp [routeOk])
          | jbool b => rw [hv] at hok; exact absurd hok (by simp [routeOk])
          | jother => rw [hv] at hok; exact absurd hok (by simp [routeOk])
      · rw [if_neg hok]
        refine ⟨"rag", ?_, by decide⟩
        rw [dictGet_dictSet]
        simp
    obtain ⟨s, hs1, hs2⟩ := hroute
    by_cases hint : isIntInstance (dictGet (if routeOk (dictGet data "route")
        then data else dictSet data "route" (JVal.jstr "rag")) "top_k")
    · rw [if_pos hint]
      exact ⟨s, hs1, hs2⟩
    · rw [if_neg hint]
      refine ⟨s, ?_, hs2⟩
      rw [dictGet_dictSet]
      simpa using hs1
  · rw [if_pos hfb]; decide
  · rw [if_neg hfb]
    by_cases hint : isIntInstance (dictGet (if routeOk (dictGet data "route")
        then data else dictSet data "route" (JVal.jstr "rag")) "top_k")
    · rw [if_pos hint]; exact hint
    · rw [if_neg hint, dictGet_dictSet, if_pos rfl]
      decide

/-- C2 (amended): the router is only partially defensive.  Whenever the
classifier response is not well-formed JSON, or parses to a falsy value,
or to a dict (where a missing route, an unknown label and a non-`int`
hint are each replaced by the safe default — though a non-positive
integer hint is kept), or to a truthy string or list in which `"route"`
is not found, the router returns a decision whose intent label is one of
the six known labels and whose result-size hint is a Python `int`; but a
truthy number or boolean payload raises `TypeError` at the membership
test, and a truthy string or list in which `"route"` is found raises
`AttributeError` at `data.get` — those requests fail instead of being
defaulted. -/
theorem routeQuestionFull_spec (data : JPayload) :
    (∀ out, routeQuestionFull data = Except.ok out →
      (∃ s, dictGet out "route" = some (JVal.jstr s) ∧ s ∈ knownRoutes)
      ∧ isIntInstance (dictGet out "top_k") = true)
    ∧ (pyTruthy data = false →
        routeQuestionFull data = Except.ok fallbackDecision)
    ∧ routeQuestionFull (JPayload.jdict []) = Except.ok fallbackDecision
    ∧ routeQuestionFull (JPayload.jboolv true)
      = Except.error PyError.typeError
    ∧ routeQuestionFull (JPayload.jintv 42) = Except.error PyError.typeError
    ∧ routeQuestionFull (JPayload.jstrv "my route")
      = Except.error PyError.attributeError
    ∧ routeQuestionFull (JPayload.jlistv [JVal.jstr "route"])
      = Except.error PyError.attributeError := by
  refine ⟨?_, ?_, rfl, rfl, rfl, rfl, rfl⟩
  · intro out hout
    unfold routeQuestionFull at hout
    by_cases ht : pyTruthy data = false
    · rw [if_pos ht] at hout
      injection hout with h
      subst h
      exact ⟨⟨"rag", by decide, by decide⟩, by decide⟩
    · rw [if_neg ht] at hout
      cases hin : routeIn data with
      | error e =>
        rw [hin] at hout
        exact Except.noConfusion hout
      | ok b =>
        rw [hin] at hout
        cases b with
        | false =>
          injection hout with h
          subst h
          exact ⟨⟨"rag", by decide, by decide⟩, by decide⟩
        | true =>
          cases data with
          | jdict d =>
            injection hout with h
            subst h
            exact ⟨(routeQuestion_dict_guarantees d).1,
              (routeQuestion_dict_guarantees d).2.1⟩
          | jlistv l => exact Except.noConfusion hout
          | jstrv s => exact Except.noConfusion hout
          | jintv n => exact Except.noConfusion hout
          | jfloatv x => exact Except.noConfusion hout
          | jboolv bb => exact Except.noConfusion hout
          | jnull => exact Except.noConfusion hout
  · intro ht
    unfold routeQuestionFull
    rw [if_pos ht]

/-- Witness for C2 (amended) at concrete inputs: a dict payload with an
unknown label and no hint is normalized to the generic intent with the
default hint, and a falsy payload (`null`) yields the fallback
decision. -/
theorem routeQuestionFull_spec_witness :
    routeQuestionFull (JPayload.jdict [("route", JVal.jstr "nope")])
      = Except.ok [("route", JVal.jstr "rag"), ("top_k", JVal.jint 5)]
    ∧ ((∃ s, dictGet [("route", JVal.jstr "rag"), ("top_k", JVal.jint 5)]
          "route" = some (JVal.jstr s) ∧ s ∈ knownRoutes)
        ∧ isIntInstance (dictGet [("route", JVal.jstr "rag"),
            ("top_k", JVal.jint 5)] "top_k") = true)
    ∧ routeQuestionFull JPayload.jnull = Except.ok fallbackDecision :=
  ⟨rfl,
    (routeQuestionFull_spec (JPayload.jdict [("route", JVal.jstr "nope")])).1
      [("route", JVal.jstr "rag"), ("top_k", JVal.jint 5)] rfl,
    (routeQuestionFull_spec JPayload.jnull).2.1 rfl⟩

/-! ### `structured_retriever.py` — BM25 retrieval over structured chunks

`BM25StructuredRetriever.retrieve_chunks`: the BM25 scorer itself (the
external `rank_bm25` library, built over the tokenized titles) enters as
the opaque `getScores`; the ranking/filter loop and the `TARGET_QUERIES`
key check are source code and embedded. -/

/-- `StructuredChunk` of `structure_chunker.py`. -/
structure StructuredChunk where
  chunk_id : String
  section_id : String
  level : Nat
  title : String
  full_title : String
  parent_id : Option String
  content : String
deriving DecidableEq

/-- Placeholder for out-of-range indexing (never reached when the score
vector has one entry per chunk). -/
def defaultChunk : StructuredChunk := ⟨"", "", 0, "", "", none, ""⟩

/-- ASCII lower-case letter or digit. -/
def isLowerAlnum (c : Char) : Bool :=
  ('a' ≤ c && c ≤ 'z') || ('0' ≤ c && c ≤ '9')

/-- `re.sub(r'[^a-z0-9\s]', ' ', text)` on one character. -/
def keepAlnum (c : Char) : Char :=
  if isLowerAlnum c || isPySpace c then c else ' '

/-- `re.sub(r'\s+', ' ', text)`: collapse whitespace runs to one space;
the flag records whether the previous character was whitespace. -/
def collapseWsAux : Bool → List Char → List Char
  | _, [] => []
  | inWs, c :: rest =>
    if isPySpace c then
      if inWs then collapseWsAux true rest
      else ' ' :: collapseWsAux true rest
    else c :: collapseWsAux false rest

/-- `normalize` of `structured_retriever.py`: lower-case, replace every
character outside `[a-z0-9\s]` by a space, collapse whitespace, strip. -/
def normalize (s : String) : String :=
  pyStrip ⟨collapseWsAux false ((s.data.map Char.toLower).map keepAlnum)⟩

/-- Python `str.split()`: split on whitespace runs, dropping empties;
`cur` is the current token accumulated in reverse. -/
def pySplitWsAux : List Char → List Char → List String
  | [], cur => if cur.isEmpty then [] else [⟨cur.reverse⟩]
  | c :: rest, cur =>
    if isPySpace c then
      if cur.isEmpty then pySplitWsAux rest []
      else (⟨cur.reverse⟩ : String) :: pySplitWsAux rest []
    else pySplitWsAux rest (c :: cur)

/-- `tokenize` of `structured_retriever.py`. -/
def tokenize (s : String) : List String :=
  pySplitWsAux (normalize s).data []

/-- `ranked_indices = sorted(range(len(scores)), key=..., reverse=True)`. -/
def rankedIndices (scores : List ℚ) : List Nat :=
  sortDescBy (fun i => scores.getD i 0) (List.range scores.length)

/-- The selection loop of `retrieve_chunks`: walk the ranked indices,
skip non-positive scores, append, and break as soon as the result has
reached `top_k` elements (the break is checked after appending, so
`top_k = 0` still lets one chunk through). -/
def pickLoop (scores : List ℚ) (top_k : Nat) : List Nat → List Nat → List Nat
  | [], acc => acc
  | idx :: rest, acc =>
    if scores.getD idx 0 ≤ 0 then pickLoop scores top_k rest acc
    else
      let acc2 := acc ++ [idx]
      if top_k ≤ acc2.length then acc2 else pickLoop scores top_k rest acc2

/-- `retrieve_chunks` after the key check, for a given score vector. -/
def retrieveChunksCore (chunks : List StructuredChunk) (scores : List ℚ)
    (top_k : Nat) : List StructuredChunk :=
  (pickLoop scores top_k (rankedIndices scores) []).map
    (fun i => chunks.getD i defaultChunk)

/-- `BM25StructuredRetriever.retrieve_chunks`: raises `ValueError` when
`agent_name` is not a key of `target_queries`, otherwise scores the
enriched query and runs the selection loop. -/
def retrieveChunks (chunks : List StructuredChunk)
    (target_queries : List (String × String))
    (getScores : List String → List ℚ)
    (agent_name : String) (top_k : Nat) :
    Except String (List StructuredChunk) :=
  if (dictGet target_queries agent_name).isNone then
    Except.error ("Agent '" ++ agent_name ++ "' not found in TARGET_QUERIES")
  else
    Except.ok (retrieveChunksCore chunks
      (getScores (tokenize ((dictGet target_queries agent_name).getD "")))
      top_k)

theorem pickLoop_spec (scores : List ℚ) (k : Nat) :
    ∀ (l acc : List Nat),
      ∃ t, pickLoop scores k l acc = acc ++ t
        ∧ t.Sublist l
        ∧ (∀ i ∈ t, 0 < scores.getD i 0)
        ∧ (acc.length < k → (acc ++ t).length ≤ k) := by
  intro l
  induction l with
  | nil =>
    intro acc
    exact ⟨[], by simp [pickLoop], List.Sublist.refl [], by simp,
      fun h => by simpa using Nat.le_of_lt h⟩
  | cons idx rest ih =>
    intro acc
    by_cases hs : scores.getD idx 0 ≤ 0
    · obtain ⟨t, h1, h2, h3, h4⟩ := ih acc
      refine ⟨t, ?_, h2.cons idx, h3, h4⟩
      show (if scores.getD idx 0 ≤ 0 then pickLoop scores k rest acc
        else if k ≤ (acc ++ [idx]).length then acc ++ [idx]
          else pickLoop scores k rest (acc ++ [idx])) = acc ++ t
      rw [if_pos hs]
      exact h1
    · push_neg at hs
      by_cases hk : k ≤ (acc ++ [idx]).length
      · refine ⟨[idx], ?_, ?_, ?_, ?_⟩
        · show (if scores.getD idx 0 ≤ 0 then pickLoop scores k rest acc
            else if k ≤ (acc ++ [idx]).length then acc ++ [idx]
              else pickLoop scores k rest (acc ++ [idx])) = acc ++ [idx]
          rw [if_neg (not_le.2 hs), if_pos hk]
        · exact (List.nil_sublist rest).cons₂ idx
        · intro i hi
          rw [List.mem_singleton.1 hi]
          exact hs
        · intro hlt
          rw [List.length_append] at hk ⊢
          simp only [List.length_singleton] at hk ⊢
          omega
      · obtain ⟨t, h1, h2, h3, h4⟩ := ih (acc ++ [idx])
        refine ⟨idx :: t, ?_, h2.cons₂ idx, ?_, ?_⟩
        · show (if scores.getD idx 0 ≤ 0 then pickLoop scores k rest acc
            else if k ≤ (acc ++ [idx]).length then acc ++ [idx]
              else pickLoop scores k rest (acc ++ [idx])) = acc ++ idx :: t
          rw [if_neg (not_le.2 hs), if_neg hk, h1, List.append_assoc]
          rfl
        · intro i hi
          rcases List.mem_cons.1 hi with hi | hi
          · rw [hi]; exact hs
          · exact h3 i hi
        · intro hlt
          push_neg at hk
          have hlast := h4 hk
          rw [List.length_append] at hlast ⊢
          rw [List.length_append, List.length_singleton] at hlast
          simp only [List.length_cons] at hlast ⊢
          omega

/-- C9 (amended): `retrieve_chunks` raises `ValueError` exactly when the
agent name is not a key of `target_queries`; otherwise its result, for
the scores the BM25 scorer returns, is a score-descending selection of
chunks at indices with strictly positive score — possibly empty or
shorter than `top_k` — containing at most `top_k` chunks PROVIDED
`top_k ≥ 1` (with `top_k = 0` the break fires only after one chunk has
been appended, so one chunk can be returned). -/
theorem retrieveChunks_spec (chunks : List StructuredChunk)
    (target_queries : List (String × String))
    (getScores : List String → List ℚ)
    (agent_name : String) (top_k : Nat) :
    (retrieveChunks chunks target_queries getScores agent_name top_k
        = Except.error
            ("Agent '" ++ agent_name ++ "' not found in TARGET_QUERIES")
      ↔ dictGet target_queries agent_name = none)
    ∧ (∀ q, dictGet target_queries agent_name = some q →
        retrieveChunks chunks target_queries getScores agent_name top_k
          = Except.ok (retrieveChunksCore chunks (getScores (tokenize q))
              top_k))
    ∧ ∀ scores : List ℚ,
        ∃ idxs : List Nat,
          retrieveChunksCore chunks scores top_k
              = idxs.map (fun i => chunks.getD i defaultChunk)
          ∧ (∀ i ∈ idxs, i < scores.length ∧ 0 < scores.getD i 0)
          ∧ idxs.Pairwise (fun i j => scores.getD j 0 ≤ scores.getD i 0)
          ∧ (1 ≤ top_k → idxs.length ≤ top_k) := by
  refine ⟨?_, ?_, ?_⟩
  · unfold retrieveChunks
    cases hq : dictGet target_queries agent_name with
    | none => simp [hq]
    | some q => simp [hq]
  · intro q hq
    unfold retrieveChunks
    rw [hq]
    simp
  · intro scores
    obtain ⟨t, h1, h2, h3, h4⟩ := pickLoop_spec scores top_k
      (rankedIndices scores) []
    rw [List.nil_append] at h1
    refine ⟨t, by rw [retrieveChunksCore, h1], ?_, ?_, ?_⟩
    · intro i hi
      refine ⟨?_, h3 i hi⟩
      have : i ∈ List.range scores.length :=
        (sortDescBy_perm _ _).subset (h2.subset hi)
      exact List.mem_range.1 this
    · exact List.Pairwise.sublist h2 (sortDescBy_pairwise _ _)
    · intro hk
      have := h4 (by simpa using hk)
      simpa using this

/-- Witness for C9 (amended) at concrete inputs. -/
theorem retrieveChunks_spec_witness :
    dictGet [("a", "q")] "a" = some "q"
    ∧ retrieveChunks [defaultChunk] [("a", "q")] (fun _ => [1]) "a" 1
      = Except.ok (retrieveChunksCore [defaultChunk]
          ((fun _ : List String => [(1 : ℚ)]) (tokenize "q")) 1) :=
  ⟨by decide,
    (retrieveChunks_spec [defaultChunk] [("a", "q")] (fun _ => [1]) "a" 1).2.1
      "q" (by decide)⟩

/-- Counterexample to C9 as stated: with `top_k = 0` and one
positive-scoring chunk the loop appends the chunk before checking the
bound, so the result has one element — more than `top_k`. -/
theorem retrieveChunks_topk_zero :
    retrieveChunks [defaultChunk] [("a", "q")] (fun _ => [1]) "a" 0
      = Except.ok [defaultChunk]
    ∧ ¬ ([defaultChunk] : List StructuredChunk).length ≤ 0 := by
  constructor
  · norm_num +decide [retrieveChunks, retrieveChunksCore, pickLoop,
      rankedIndices, sortDescBy, List.insertionSort, List.orderedInsert,
      dictGet, tokenize, normalize, pyStrip, pyStripList, collapseWsAux,
      keepAlnum, isLowerAlnum, isPySpace]
  · decide

/-! ### A small matching kernel for the header regexes

The three modules detect headers with `re.finditer` over fixed patterns
of the shape `prefix number whitespace title lookahead`.  The matchers
below reproduce Python's leftmost scan and greedy-with-backtracking
semantics for exactly these patterns: a quantified run first takes its
maximal extent and then gives characters back one at a time until the
rest of the pattern matches. -/

/-- `'0'-'9'`. -/
def isDigitCh (c : Char) : Bool := '0' ≤ c && c ≤ '9'

/-- `'A'-'Z'`. -/
def isUpperCh (c : Char) : Bool := 'A' ≤ c && c ≤ 'Z'

/-- ASCII letter (Python `str.isalpha` on the ASCII documents). -/
def isAlphaCh (c : Char) : Bool := isUpperCh c || ('a' ≤ c && c ≤ 'z')

/-- Length of the maximal run of characters satisfying `cls`. -/
def runLen (cls : Char → Bool) : List Char → Nat
  | [] => 0
  | c :: rest => if cls c then runLen cls rest + 1 else 0

/-- Backtracking search: the first success of `f` at `hi, hi-1, …`,
taking at most `fuel` steps. -/
def firstDownAux {β : Type} (f : Nat → Option β) : Nat → Nat → Option β
  | 0, _ => none
  | fuel + 1, hi =>
    match f hi with
    | some b => some b
    | none => firstDownAux f fuel (hi - 1)

/-- The first success of `f` at `hi, hi-1, …, lo` (greedy choices are
tried longest-first, as the regex engine backtracks). -/
def firstDown {β : Type} (f : Nat → Option β) (hi lo : Nat) : Option β :=
  if lo ≤ hi then firstDownAux f (hi + 1 - lo) hi else none

/-- Match `[A-Z]CLS{minRep,}(?=\n)` at `pos`: an upper-case head, then
the longest class run (of at least `minRep`) whose following character is
a newline; returns the exclusive end of the title. -/
def matchTitleNl (cls : Char → Bool) (minRep : Nat) (text : List Char)
    (pos : Nat) : Option Nat :=
  match text.get? pos with
  | some c =>
    if isUpperCh c then
      firstDown
        (fun k =>
          if text.get? (pos + 1 + k) = some '\n' then some (pos + 1 + k)
          else none)
        (runLen cls (text.drop (pos + 1))) minRep
    else none
  | none => none

/-- Match `\d+` at `pos`: the maximal digit run.  (A shorter greedy
choice would leave a digit at the next position, where these patterns
require `\.` or `\s`, so the maximal run is the only viable one.) -/
def matchDigits (text : List Char) (pos : Nat) : Option Nat :=
  let run := runLen isDigitCh (text.drop pos)
  if run = 0 then none else some (pos + run)

/-- Match exactly `n` further groups of `\.\d+`. -/
def matchDotGroups (text : List Char) : Nat → Nat → Option Nat
  | pos, 0 => some pos
  | pos, n + 1 =>
    if text.get? pos = some '.' then
      match matchDigits text (pos + 1) with
      | none => none
      | some e => matchDotGroups text e n
    else none

/-- Greedily match `(?:\.\d+)*`.  (Giving back a group cannot help: the
following `\s+` would then face the group's leading `.`.) -/
def matchDotStar (text : List Char) : Nat → Nat → Nat
  | 0, pos => pos
  | fuel + 1, pos =>
    if text.get? pos = some '.' then
      match matchDigits text (pos + 1) with
      | none => pos
      | some e => matchDotStar text fuel e
    else pos

/-- `\d+`: the section-number shape of `section_splitter.py`. -/
def numPlain (text : List Char) (pos : Nat) : Option Nat :=
  matchDigits text pos

/-- `\d+\.\d+`: the subsection-number shape. -/
def numDotted1 (text : List Char) (pos : Nat) : Option Nat :=
  match matchDigits text pos with
  | none => none
  | some e => matchDotGroups text e 1

/-- `\d+\.\d+\.\d+(?:\.\d+)*`: the subsubsection-number shape. -/
def numDotted2Star (text : List Char) (pos : Nat) : Option Nat :=
  match matchDigits text pos with
  | none => none
  | some e =>
    match matchDotGroups text e 2 with
    | none => none
    | some e2 => some (matchDotStar text text.length e2)

/-- A raw header match: number group text, title group span, match span
(`mend` is `match.end()`; lookaheads are not consumed). -/
structure HeaderMatch where
  number : String
  titleStart : Nat
  titleEnd : Nat
  start : Nat
  mend : Nat
deriving DecidableEq

/-- Match `number \s{wsLo,} [A-Z]CLS+ (?=\n)` with the number starting at
`bodyPos` and the whole match starting at `mstart`; `\s+` backtracks from
its maximal run. -/
def matchHeaderBody (numMatch : List Char → Nat → Option Nat)
    (cls : Char → Bool) (wsLo : Nat) (text : List Char)
    (mstart bodyPos : Nat) : Option HeaderMatch :=
  match numMatch text bodyPos with
  | none => none
  | some numEnd =>
    firstDown
      (fun s =>
        match matchTitleNl cls 1 text (numEnd + s) with
        | some tEnd =>
          some ⟨⟨pySlice text bodyPos numEnd⟩, numEnd + s, tEnd, mstart, tEnd⟩
        | none => none)
      (runLen isPySpace (text.drop numEnd)) wsLo

/-- `(?:^|\n)` + body, for the `section_splitter.py` patterns (without
`re.MULTILINE`, `^` only matches at position 0; the `\n` branch consumes
the newline, so it is part of the match and of `match.start()`). -/
def matchAnchoredAt (numMatch : List Char → Nat → Option Nat)
    (cls : Char → Bool) (text : List Char) (pos : Nat) : Option HeaderMatch :=
  if pos = 0 then
    match matchHeaderBody numMatch cls 1 text 0 0 with
    | some m => some m
    | none =>
      if text.get? 0 = some '\n' then matchHeaderBody numMatch cls 1 text 0 1
      else none
  else
    if text.get? pos = some '\n' then
      matchHeaderBody numMatch cls 1 text pos (pos + 1)
    else none

/-- `re.finditer`: scan left to right, emitting non-overlapping matches
and resuming right after each match's end.  All matches here are
non-empty, so `text.length + 1` steps of fuel cover every position. -/
def scanAux {μ : Type} (tryAt : Nat → Option μ) (endOf : μ → Nat) :
    Nat → Nat → List μ
  | 0, _ => []
  | fuel + 1, pos =>
    match tryAt pos with
    | some m => m :: scanAux tryAt endOf fuel (endOf m)
    | none => scanAux tryAt endOf fuel (pos + 1)

/-! ### `section_splitter.py` — `split_into_sections` -/

/-- `[A-Z0-9\s\-:()]`: the section-title class. -/
def clsSectionTitle (c : Char) : Bool :=
  isUpperCh c || isDigitCh c || isPySpace c ||
    c = '-' || c = ':' || c = '(' || c = ')'

/-- `[A-Za-z0-9\s\-:()]`: the subsection/subsubsection title class. -/
def clsMixedTitle (c : Char) : Bool :=
  clsSectionTitle c || ('a' ≤ c && c ≤ 'z')

/-- One detected header as the splitter keeps it: number group, stripped
title, match start (`end_header` is stored by the source but never read
afterwards). -/
structure SSMatch where
  number : String
  title : String
  start : Nat
deriving DecidableEq

/-- Python `sorted(matches, key=lambda x: x['start'])`: stable ascending
sort by start offset. -/
def sortByStart (l : List SSMatch) : List SSMatch :=
  l.insertionSort (fun a b => a.start ≤ b.start)

/-- The section `finditer` pass with the all-caps filter
(`alpha_chars and alpha_chars.isupper()`). -/
def sectionMatches (text : List Char) : List SSMatch :=
  (scanAux (matchAnchoredAt numPlain clsSectionTitle text) (·.mend)
      (text.length + 1) 0).filterMap
    (fun m =>
      let title := pyStrip ⟨pySlice text m.titleStart m.titleEnd⟩
      let alpha := title.data.filter isAlphaCh
      if ¬ alpha.isEmpty ∧ alpha.all isUpperCh then
        some ⟨m.number, title, m.start⟩
      else none)

/-- The subsection `finditer` pass. -/
def subsectionMatches (text : List Char) : List SSMatch :=
  (scanAux (matchAnchoredAt numDotted1 clsMixedTitle text) (·.mend)
      (text.length + 1) 0).map
    (fun m => ⟨m.number, pyStrip ⟨pySlice text m.titleStart m.titleEnd⟩,
      m.start⟩)

/-- The subsubsection `finditer` pass (used only for name extraction). -/
def subsubsectionMatches (text : List Char) : List SSMatch :=
  (scanAux (matchAnchoredAt numDotted2Star clsMixedTitle text) (·.mend)
      (text.length + 1) 0).map
    (fun m => ⟨m.number, pyStrip ⟨pySlice text m.titleStart m.titleEnd⟩,
      m.start⟩)

/-- Python `str.startswith` (structurally recursive, unlike
`String.isPrefixOf`, whose well-founded recursion the kernel cannot
evaluate). -/
def pyStartswith (p s : String) : Bool := List.isPrefixOf p.data s.data

/-- Python `"a.b.c".split('.')`. -/
def splitDotAux : List Char → List Char → List String
  | [], cur => [⟨cur.reverse⟩]
  | c :: rest, cur =>
    if c = '.' then (⟨cur.reverse⟩ : String) :: splitDotAux rest []
    else splitDotAux rest (c :: cur)

def pySplitDot (s : String) : List String := splitDotAux s.data []

/-- Python `s.split('\n', 1)`: the text before the first newline and,
when one exists, everything after it. -/
def splitOnceNlAux : List Char → List Char → String × Option String
  | [], cur => (⟨cur.reverse⟩, none)
  | c :: rest, cur =>
    if c = '\n' then (⟨cur.reverse⟩, some ⟨rest⟩)
    else splitOnceNlAux rest (c :: cur)

def pySplitOnceNl (s : String) : String × Option String :=
  splitOnceNlAux s.data []

/-- `subsubsections_by_subsection`: subsubsection titles grouped under
the first two number segments, in scan order. -/
def subsubsByParent (text : List Char) : List (String × List String) :=
  (subsubsectionMatches text).foldl
    (fun d m =>
      let parent := String.intercalate "." ((pySplitDot m.number).take 2)
      match dictGet d parent with
      | some names => dictSet d parent (names ++ [m.title])
      | none => dictSet d parent [m.title]) []

/-- Backwards search for the parent section
(`for j in range(i-1, -1, -1): if matches[j]['number'] == parent: …`). -/
def findParent (ms : List SSMatch) (parentNum : String) : Nat → Option Nat
  | 0 => none
  | j + 1 =>
    match ms.get? j with
    | some mj =>
      if mj.number = parentNum then some j
      else findParent ms parentNum j
    | none => findParent ms parentNum j

/-- The body of one iteration of the main loop of `split_into_sections`:
the `(chunk name, content)` pair it assigns into `sections`, or `none`
when the entry is a section with subsections (no chunk emitted).  The
loop never reads `sections`, so computing the pair separately from the
dict insertion is faithful. -/
def sectionEntry (text : List Char) (ms : List SSMatch)
    (subsubs : List (String × List String)) (i : Nat) (m : SSMatch) :
    Option (String × String) :=
  let endp := match ms.get? (i + 1) with
    | some m' => m'.start
    | none => text.length
  let content := pyStrip ⟨pySlice text m.start endp⟩
  let parts := pySplitDot m.number
  if parts.length = 1 then
    let hasSubs := match ms.get? (i + 1) with
      | some m' => pyStartswith (m.number ++ ".") m'.number
      | none => false
    if hasSubs then none else some (m.title, content)
  else
    let parentIdx := findParent ms (parts.headD "") i
    let baseName := match parentIdx with
      | some j =>
        ((ms.get? j).getD ⟨"", "", 0⟩).title ++ ": " ++ m.title
      | none => m.title
    let chunkName := match dictGet subsubs m.number with
      | some names => baseName ++ ": " ++ String.intercalate ", " names
      | none => baseName
    let combined := match parentIdx with
      | some j =>
        let pm := (ms.get? j).getD ⟨"", "", 0⟩
        let parentText := pyStrip ⟨pySlice text pm.start m.start⟩
        let pcbs := match (pySplitOnceNl parentText).2 with
          | some rest => pyStrip rest
          | none => ""
        pcbs ++ "\n\n" ++ content
      | none => content
    some (chunkName, combined)

/-- The `(chunk name, content)` pairs the loop produces, in loop order
(before dict semantics collapse duplicate names). -/
def sectionPairs (text : String) : List (String × String) :=
  let tl := text.data
  let ms := sortByStart (sectionMatches tl ++ subsectionMatches tl)
  ms.enum.filterMap
    (fun p => sectionEntry tl ms (subsubsByParent tl) p.1 p.2)

/-- `sections[name] = content` for an emitted entry; skip otherwise. -/
def insertEntry {β : Type} (s : List (String × β)) :
    Option (String × β) → List (String × β)
  | some e => dictSet s e.1 e.2
  | none => s

/-- `split_into_sections`: detect headers with the three patterns, sort
by position, and build the `sections` dict. -/
def splitIntoSections (text : String) : List (String × String) :=
  let tl := text.data
  let ms := sortByStart (sectionMatches tl ++ subsectionMatches tl)
  ms.enum.foldl
    (fun sections p =>
      insertEntry sections (sectionEntry tl ms (subsubsByParent tl) p.1 p.2))
    []

/-! ### `structure_chunker.py` — `extract_headers` / `build_structured_chunks` -/

/-- `[A-Z\s\-()]`: the chunker's section-title class. -/
def clsChunkSection (c : Char) : Bool :=
  isUpperCh c || isPySpace c || c = '-' || c = '(' || c = ')'

/-- `[A-Za-z0-9\s\-():/]`: the chunker's subsection-title class. -/
def clsChunkSub (c : Char) : Bool :=
  isUpperCh c || ('a' ≤ c && c ≤ 'z') || isDigitCh c || isPySpace c ||
    c = '-' || c = '(' || c = ')' || c = ':' || c = '/'

/-- `\d+\.\d+(?:\.\d+)*`: the chunker's subsection-number shape. -/
def numDotted1Star (text : List Char) (pos : Nat) : Option Nat :=
  match matchDigits text pos with
  | none => none
  | some e =>
    match matchDotGroups text e 1 with
    | none => none
    | some e2 => some (matchDotStar text text.length e2)

/-- `(?<=\n)` + `number \s{2,} title (?=\n)`: the chunker patterns use a
lookbehind, so the newline is not part of the match and `match.start()`
is the first digit. -/
def matchLookbehindAt (numMatch : List Char → Nat → Option Nat)
    (cls : Char → Bool) (text : List Char) (pos : Nat) : Option HeaderMatch :=
  if 1 ≤ pos ∧ text.get? (pos - 1) = some '\n' then
    matchHeaderBody numMatch cls 2 text pos pos
  else none

/-- `extract_headers`: both `finditer` passes, each entry keeping the
number, stripped title and start offset (the stored `end` is never read),
sorted by start. -/
def extractHeaders (text : String) : List SSMatch :=
  let tl := text.data
  sortByStart
    (((scanAux (matchLookbehindAt numPlain clsChunkSection tl) (·.mend)
        (tl.length + 1) 0).map
      (fun m => (⟨m.number, pyStrip ⟨pySlice tl m.titleStart m.titleEnd⟩,
        m.start⟩ : SSMatch)))
      ++
      ((scanAux (matchLookbehindAt numDotted1Star clsChunkSub tl) (·.mend)
        (tl.length + 1) 0).map
      (fun m => (⟨m.number, pyStrip ⟨pySlice tl m.titleStart m.titleEnd⟩,
        m.start⟩ : SSMatch))))

/-- `build_structured_chunks`: returns `[]` when no headers are detected,
otherwise emits one chunk per leaf header (a header is a non-leaf iff the
immediately following header's number extends its own by a dot), with the
ancestor titles joined into the full title via the number→title map. -/
def buildStructuredChunks (text : String) : List StructuredChunk :=
  let tl := text.data
  let headers := extractHeaders text
  if headers = [] then []
  else
    let headerMap := pyDictOf (headers.map (fun h => (h.number, h.title)))
    headers.enum.filterMap
      (fun p =>
        let i := p.1
        let h := p.2
        let hasChild := match headers.get? (i + 1) with
          | some h' => pyStartswith (h.number ++ ".") h'.number
          | none => false
        if hasChild then none
        else
          let endp := match headers.get? (i + 1) with
            | some h' => h'.start
            | none => tl.length
          let content := pyStrip ⟨pySlice tl h.start endp⟩
          let parts := pySplitDot h.number
          let level := (h.number.data.filter (fun c => c = '.')).length + 1
          let parentId := if parts.length > 1 then
              some (String.intercalate "." parts.dropLast)
            else none
          let ancestors := ((List.range parts.length).drop 1).filterMap
            (fun j => dictGet headerMap
              (String.intercalate "." (parts.take j)))
          let fullTitle := String.intercalate " > " (ancestors ++ [h.title])
          some ⟨"sec_" ++ h.number, h.number, level, h.title, fullTitle,
            parentId, content⟩)

/-! ### `rag.py` — `split_into_sections_regex` -/

/-- `[A-Z\s\-(),]`: the title class of `SECTION_HEADER_PATTERN`. -/
def clsRagTitle (c : Char) : Bool :=
  isUpperCh c || isPySpace c || c = '-' || c = '(' || c = ')' || c = ','

/-- `[A-Z][A-Z\s\-(),]{4,}$` at `pos` under `re.MULTILINE`: the longest
class run of at least 4 whose end is the end of the text or is followed
by a newline. -/
def matchTitleEol (text : List Char) (pos : Nat) : Option Nat :=
  match text.get? pos with
  | some c =>
    if isUpperCh c then
      firstDown
        (fun k =>
          if pos + 1 + k = text.length ∨ text.get? (pos + 1 + k) = some '\n'
          then some (pos + 1 + k) else none)
        (runLen clsRagTitle (text.drop (pos + 1))) 4
    else none
  | none => none

/-- `\d+(\.\d+)*`. -/
def numDotted0Star (text : List Char) (pos : Nat) : Option Nat :=
  match matchDigits text pos with
  | none => none
  | some e => some (matchDotStar text text.length e)

/-- The body of `SECTION_HEADER_PATTERN` at `pos`: the optional (greedy,
so tried first) numeric prefix with `\s+`, then the all-caps title up to
an end of line; returns `match.end()`. -/
def ragBody (text : List Char) (pos : Nat) : Option Nat :=
  match
    (match numDotted0Star text pos with
      | some numEnd =>
        firstDown (fun s => matchTitleEol text (numEnd + s))
          (runLen isPySpace (text.drop numEnd)) 1
      | none => none)
  with
  | some e => some e
  | none => matchTitleEol text pos

/-- `^` under `re.MULTILINE`: position 0 or right after a newline (not
consumed).  Returns the `(start, end)` span of a match at `pos`. -/
def matchRagAt (text : List Char) (pos : Nat) : Option (Nat × Nat) :=
  if pos = 0 ∨ text.get? (pos - 1) = some '\n' then
    match ragBody text pos with
    | some e => some (pos, e)
    | none => none
  else none

/-- All `SECTION_HEADER_PATTERN.finditer(text)` spans. -/
def ragHeaderMatches (text : String) : List (Nat × Nat) :=
  scanAux (matchRagAt text.data) (·.2) (text.length + 1) 0

/-- `split_into_sections_regex`: with no header matches the whole
document becomes the single section `"full_document"`; otherwise each
match's stripped `group(0)` maps to the stripped text between its end and
the next match's start. -/
def splitIntoSectionsRegex (text : String) : List (String × String) :=
  let tl := text.data
  let ms := ragHeaderMatches text
  if ms = [] then [("full_document", text)]
  else
    ms.enum.foldl
      (fun sections p =>
        let title := pyStrip ⟨pySlice tl p.2.1 p.2.2⟩
        let endp := match ms.get? (p.1 + 1) with
          | some m' => m'.1
          | none => tl.length
        let content := pyStrip ⟨pySlice tl p.2.2 endp⟩
        dictSet sections title content) []

/-! ### Dict-semantics lemmas for the splitter claims -/

/-- Interleaving dict insertion with the per-entry computation is the
same as collecting the entries first and inserting them in order. -/
theorem foldl_dict_step {γ β : Type} (f : γ → Option (String × β)) :
    ∀ (l : List γ) (init : List (String × β)),
      l.foldl (fun s x => insertEntry s (f x)) init
      = (l.filterMap f).foldl (fun s e => dictSet s e.1 e.2) init := by
  intro l
  induction l with
  | nil => intro init; rfl
  | cons x rest ih =>
    intro init
    cases hx : f x with
    | some e =>
      rw [List.foldl_cons, List.filterMap_cons, hx, List.foldl_cons]
      exact ih _
    | none =>
      rw [List.foldl_cons, List.filterMap_cons, hx]
      exact ih _

/-- The value a dict holds for `t` is the value of the LAST pair with
key `t` among the inserted pairs. -/
def lastVal {β : Type} (ps : List (String × β)) (t : String) : Option β :=
  ((ps.filter (fun p => p.1 = t)).map (·.2)).getLast?

theorem dictGet_pyDictOf {β : Type} :
    ∀ (ps : List (String × β)) (t : String),
      dictGet (pyDictOf ps) t = lastVal ps t := by
  intro ps
  induction ps using List.reverseRecOn with
  | nil => intro t; rfl
  | append_singleton u p ih =>
    intro t
    have hfold : pyDictOf (u ++ [p]) = dictSet (pyDictOf u) p.1 p.2 := by
      simp [pyDictOf, List.foldl_append]
    rw [hfold, dictGet_dictSet]
    unfold lastVal
    rw [List.filter_append, List.map_append]
    by_cases ht : t = p.1
    · have hp : (decide (p.1 = t)) = true := by simp [ht]
      simp [ht, List.filter_cons, hp, List.getLast?_concat]
    · have hp : ¬ (p.1 = t) := fun h => ht h.symm
      simp only [ht, if_false, List.filter_cons, hp, decide_eq_true_eq,
        if_neg hp, List.filter_nil, List.map_nil, List.append_nil]
      exact ih t

theorem length_pyDictOf_le {β : Type} :
    ∀ ps : List (String × β), (pyDictOf ps).length ≤ ps.length := by
  intro ps
  induction ps using List.reverseRecOn with
  | nil => exact Nat.le_refl 0
  | append_singleton u p ih =>
    have hfold : pyDictOf (u ++ [p]) = dictSet (pyDictOf u) p.1 p.2 := by
      simp [pyDictOf, List.foldl_append]
    rw [hfold, length_dictSet, List.length_append]
    by_cases h : p.1 ∈ (pyDictOf u).map (·.1) <;> simp [h] <;> omega

theorem mem_keys_pyDictOf {β : Type} :
    ∀ (ps : List (String × β)) (t : String),
      t ∈ (pyDictOf ps).map (·.1) ↔ t ∈ ps.map (·.1) := by
  intro ps
  induction ps using List.reverseRecOn with
  | nil => intro t; simp [pyDictOf]
  | append_singleton u p ih =>
    intro t
    have hfold : pyDictOf (u ++ [p]) = dictSet (pyDictOf u) p.1 p.2 := by
      simp [pyDictOf, List.foldl_append]
    rw [hfold, mem_keys_dictSet]
    simp [ih, or_comm]

theorem length_pyDictOf_lt {β : Type} :
    ∀ ps : List (String × β), ¬ (ps.map (·.1)).Nodup →
      (pyDictOf ps).length < ps.length := by
  intro ps
  induction ps using List.reverseRecOn with
  | nil => intro h; exact absurd List.nodup_nil h
  | append_singleton u p ih =>
    intro h
    have hfold : pyDictOf (u ++ [p]) = dictSet (pyDictOf u) p.1 p.2 := by
      simp [pyDictOf, List.foldl_append]
    rw [hfold, List.length_append]
    by_cases hdup : (u.map (·.1)).Nodup
    · have hmem : p.1 ∈ u.map (·.1) := by
        by_contra hnm
        apply h
        rw [List.map_append]
        simp [List.nodup_append, hdup, hnm]
      have hmem' : p.1 ∈ (pyDictOf u).map (·.1) :=
        (mem_keys_pyDictOf u p.1).2 hmem
      rw [length_dictSet, if_pos hmem']
      have := length_pyDictOf_le u
      simp only [List.length_singleton]
      omega
    · have := ih hdup
      rw [length_dictSet]
      by_cases hm : p.1 ∈ (pyDictOf u).map (·.1) <;>
        simp only [hm, if_true, if_false, List.length_singleton] <;> omega

/-! ### Claim theorems for the segmenters -/

/-- C10: `split_into_sections` keys its output dict by computed chunk
title; the `sections` dict holds, for every title, the LAST content
assigned to it (an earlier section with the same computed title is
silently overwritten), so when two distinct detected leaf headers yield
the same title the mapping has strictly fewer entries than the loop
produced pairs. -/
theorem splitIntoSections_last_wins (text : String) :
    splitIntoSections text = pyDictOf (sectionPairs text)
    ∧ (∀ t, dictGet (splitIntoSections text) t = lastVal (sectionPairs text) t)
    ∧ (¬ ((sectionPairs text).map (·.1)).Nodup →
        (splitIntoSections text).length < (sectionPairs text).length) := by
  have heq : splitIntoSections text = pyDictOf (sectionPairs text) := by
    simp only [splitIntoSections, sectionPairs, pyDictOf]
    exact foldl_dict_step
      (fun p => sectionEntry text.data
        (sortByStart (sectionMatches text.data ++ subsectionMatches text.data))
        (subsubsByParent text.data) p.1 p.2)
      (sortByStart (sectionMatches text.data ++ subsectionMatches text.data)).enum
      []
  refine ⟨heq, ?_, ?_⟩
  · intro t
    rw [heq]
    exact dictGet_pyDictOf _ t
  · intro hdup
    rw [heq]
    exact length_pyDictOf_lt _ hdup

/-- Witness for C10: two leaf sections both titled `ALPHA`; the dict
keeps only the later content and has 1 entry for 2 produced pairs. -/
theorem splitIntoSections_last_wins_witness :
    ¬ ((sectionPairs "1 ALPHA\nx\n2 ALPHA\ny").map (·.1)).Nodup
    ∧ (splitIntoSections "1 ALPHA\nx\n2 ALPHA\ny").length
        < (sectionPairs "1 ALPHA\nx\n2 ALPHA\ny").length
    ∧ dictGet (splitIntoSections "1 ALPHA\nx\n2 ALPHA\ny") "ALPHA"
        = some "2 ALPHA\ny" :=
  ⟨by decide,
    (splitIntoSections_last_wins "1 ALPHA\nx\n2 ALPHA\ny").2.2 (by decide),
    by decide⟩

/-- Counterexample to C3 as stated: on an input where no header pattern
matches, `build_structured_chunks` returns the EMPTY chunk list — not a
single whole-document chunk. -/
theorem structured_chunks_empty_on_headerless :
    extractHeaders "plain text here" = []
    ∧ buildStructuredChunks "plain text here" = [] := by
  refine ⟨by decide, by decide⟩

/-- C3 (amended): when no header matches, the regex splitter of `rag.py`
returns exactly one section — the whole document under the sentinel title
`"full_document"` — while `build_structured_chunks` of
`structure_chunker.py` instead returns an empty chunk list. -/
theorem segmentation_no_headers (text : String) :
    (ragHeaderMatches text = [] →
      splitIntoSectionsRegex text = [("full_document", text)])
    ∧ (extractHeaders text = [] → buildStructuredChunks text = []) := by
  constructor
  · intro h
    unfold splitIntoSectionsRegex
    rw [h]
    simp
  · intro h
    unfold buildStructuredChunks
    rw [h]
    simp

/-- Witness for C3 (amended) on a header-free document. -/
theorem segmentation_no_headers_witness :
    ragHeaderMatches "plain text" = []
    ∧ splitIntoSectionsRegex "plain text" = [("full_document", "plain text")]
    ∧ extractHeaders "plain text" = []
    ∧ buildStructuredChunks "plain text" = [] :=
  ⟨by decide, (segmentation_no_headers "plain text").1 (by decide),
    by decide, (segmentation_no_headers "plain text").2 (by decide)⟩

/-- The text of Scenario A. -/
def scenarioA : String :=
  "1 INTRODUCTION\n...\n2 METHODS\n2.1 Design\n...\n2.2 Endpoints\n..."

/-- C8: Scenario A segments into exactly 3 leaf chunks titled
`INTRODUCTION`, `METHODS: Design` and `METHODS: Endpoints`; no chunk is
produced for the non-leaf header `2 METHODS`. -/
theorem scenarioA_three_leaf_chunks :
    (splitIntoSections scenarioA).map (·.1)
      = ["INTRODUCTION", "METHODS: Design", "METHODS: Endpoints"]
    ∧ (splitIntoSections scenarioA).length = 3
    ∧ "METHODS" ∉ (splitIntoSections scenarioA).map (·.1) := by
  refine ⟨by decide, by decide, by decide⟩

end CTP
